import Mathlib

/-!
Verification of the best-rate graph search from `src/main.rs`.

The program maintains a graph whose edges carry multiplicative conversion
rates (`Graph` with a `BTreeSet` of vertices and a `HashMap`-of-`HashMap`
adjacency), inserts edges pairwise with automatic reciprocal creation
(`add_rate`), and finds the best compounded rate between two vertices by a
relaxation-pruned breadth-first search (`find_best_rate`).

Embedding choices:
* `f32` rates are modelled as exact rationals `ℚ`.
* the Rust `HashMap` is modelled as an association list with
  replace-or-append insertion (`ainsert`) and first-match lookup (`alookup`);
  the `BTreeSet` of vertices as a sorted duplicate-free list (`binsert`).
* the `assert!` in `add_rate` (a panic) is modelled by returning `none`.
* the `while let` loop of `find_best_rate` is modelled by a fuel-indexed
  recursion `bfsLoop`; `stateMeasure` gives an explicit fuel bound that is
  proved sufficient (`bfsLoop_isSome_of_measure_lt`), which is the
  termination argument for the loop.
-/

abbrev Vertex := Char

/-- Association-list lookup, first match wins (models `HashMap::get`). -/
def alookup {α β : Type} [DecidableEq α] : List (α × β) → α → Option β
  | [], _ => none
  | (k, b) :: rest, a => if k = a then some b else alookup rest a

/-- Association-list insert: overwrite the first binding of the key in
place, or append a fresh binding (models `HashMap::insert`). -/
def ainsert {α β : Type} [DecidableEq α] : List (α × β) → α → β → List (α × β)
  | [], a, b => [(a, b)]
  | (k, c) :: rest, a, b => if k = a then (a, b) :: rest else (k, c) :: ainsert rest a b

/-- Ordered-set insert (models `BTreeSet::insert` on `char`). -/
def binsert (v : Vertex) : List Vertex → List Vertex
  | [] => [v]
  | x :: xs => if v < x then v :: x :: xs else if v = x then x :: xs else x :: binsert v xs

/-- `Edge::from([char; 2])`: the implementation sorts the two-element array
before forming the edge, so the edge endpoints are in increasing order. -/
def Edge.fromChars (a b : Char) : Vertex × Vertex :=
  if a ≤ b then (a, b) else (b, a)

/-- The `Graph` struct: a `BTreeSet` of vertices and a nested adjacency map
`vertex → (neighbor → rate)`. -/
structure Graph where
  vertices : List Vertex
  edges : List (Vertex × List (Vertex × ℚ))
  deriving DecidableEq, Repr

/-- `Graph::new`. -/
def Graph.new : Graph := { vertices := [], edges := [] }

/-- `Graph::add_rate`.  The source first asserts `rate != 0.0` (a panic,
modelled as `none`), then silently returns on a self-loop edge, and
otherwise records the rate in the given direction and its reciprocal in the
opposite direction. -/
def Graph.add_rate (g : Graph) (e : Vertex × Vertex) (rate : ℚ) : Option Graph :=
  if rate = 0 then none
  else if e.1 = e.2 then some g
  else
    let vs := binsert e.2 (binsert e.1 g.vertices)
    let es1 := ainsert g.edges e.1 (ainsert ((alookup g.edges e.1).getD []) e.2 rate)
    let es2 := ainsert es1 e.2 (ainsert ((alookup es1 e.2).getD []) e.1 (1 / rate))
    some { vertices := vs, edges := es2 }

/-- `graph.add_rate(['a', 'b'].into(), r)` as written by every caller in the
repository: the char pair goes through `Edge::from` (which sorts it). -/
def Graph.addRateChars (g : Graph) (a b : Char) (rate : ℚ) : Option Graph :=
  g.add_rate (Edge.fromChars a b) rate

/-- A sequence of `add_rate` calls, as performed by the tests and `main`. -/
def Graph.addAll (g : Graph) : List (Vertex × Vertex × ℚ) → Option Graph
  | [] => some g
  | (a, b, r) :: rest =>
    match g.addRateChars a b r with
    | none => none
    | some g' => g'.addAll rest

/-- The adjacency list of a vertex (`self.edges.get(v)`, defaulting to no
neighbors). -/
def neighbors (g : Graph) (v : Vertex) : List (Vertex × ℚ) :=
  (alookup g.edges v).getD []

/-- The stored rate of the directed edge `u → v`, if any. -/
def edgeRate (g : Graph) (u v : Vertex) : Option ℚ :=
  (alookup g.edges u).bind (fun inner => alookup inner v)

/-- A queue entry of the search: terminal vertex, compounded rate, path. -/
abbrev QEntry := Vertex × ℚ × List Vertex

/-- The visited-vertex check of `find_best_rate` (the `match` on
`visited.entry(new_vertex)`): a vacant entry records the rate; an occupied
entry with a rate `≥` the new one drops the path (`none`); otherwise the
recorded rate is updated. -/
def visitCheck (vis : List (Vertex × ℚ)) (v : Vertex) (r : ℚ) :
    Option (List (Vertex × ℚ)) :=
  match alookup vis v with
  | none => some (ainsert vis v r)
  | some cur => if r ≤ cur then none else some (ainsert vis v r)

/-- The candidate update at the destination: keep the strictly greater rate
(`best_rate.map(..).or(Some(new_rate))`). -/
def someBetter (best : Option ℚ) (r : ℚ) : Option ℚ :=
  match best with
  | none => some r
  | some x => some (if x < r then r else x)

/-- The expansion step: every neighbor not already on the path is enqueued
with the multiplied rate and the extended path. -/
def expand (g : Graph) (v : Vertex) (r : ℚ) (p : List Vertex) : List QEntry :=
  (neighbors g v).filterMap
    (fun e => if p.contains e.1 then none else some (e.1, e.2 * r, p ++ [e.1]))

/-- The `while let Some(..) = queue.pop_front()` loop of `find_best_rate`,
with explicit fuel; `none` means the fuel ran out.  Returns the final
`best_rate` together with the final `visited` map. -/
def bfsLoop (g : Graph) (dst : Vertex) :
    Nat → List QEntry → List (Vertex × ℚ) → Option ℚ →
    Option (Option ℚ × List (Vertex × ℚ))
  | _, [], vis, best => some (best, vis)
  | 0, _ :: _, _, _ => none
  | n + 1, (v, r, p) :: rest, vis, best =>
    match visitCheck vis v r with
    | none => bfsLoop g dst n rest vis best
    | some vis' =>
      if v = dst then
        bfsLoop g dst n rest vis' (someBetter best r)
      else
        bfsLoop g dst n (rest ++ expand g v r p) vis' best

/-- All vertices that can ever be pushed onto the queue: the keys of the
inner adjacency maps. -/
def innerKeys (g : Graph) : List Vertex :=
  (g.edges.map (fun e => e.2.map (fun x => x.1))).flatten

def freshSet (g : Graph) : Finset Vertex := (innerKeys g).toFinset

def degBound (g : Graph) : Nat := (innerKeys g).length

/-- `bigA d n` bounds the number of loop iterations generated by a queue
entry whose path misses `n` pushable vertices, when no vertex has more than
`d` neighbors. -/
def bigA (d : Nat) : Nat → Nat
  | 0 => 1
  | n + 1 => 1 + d * bigA d n

def entryMeasure (g : Graph) (e : QEntry) : Nat :=
  bigA (degBound g) ((freshSet g) \ e.2.2.toFinset).card

def stateMeasure (g : Graph) (q : List QEntry) : Nat :=
  (q.map (entryMeasure g)).sum

/-- `Graph::find_best_rate`: run the loop from the singleton queue holding
`(src, 1.0, vec![src])`, with fuel one more than the measure of that state
(proved sufficient below). -/
def Graph.find_best_rate (g : Graph) (src dst : Vertex) : Option ℚ :=
  match bfsLoop g dst (stateMeasure g [(src, 1, [src])] + 1) [(src, 1, [src])] [] none with
  | some res => res.1
  | none => none

/-- The compounded rate of the walk `a :: l` read off the stored edges:
`some r` iff every consecutive pair is a stored edge and the product of the
stored rates is `r`. -/
def chainRate (g : Graph) : Vertex → List Vertex → Option ℚ
  | _, [] => some 1
  | a, b :: rest =>
    match edgeRate g a b with
    | none => none
    | some e => (chainRate g b rest).map (fun r => e * r)

/-- `r` is the compounded rate of a simple path from `src` to `dst` in `g`:
there is a duplicate-free vertex sequence starting at `src`, ending at
`dst`, whose consecutive pairs are stored edges with rate product `r`. -/
def SimplePathRate (g : Graph) (src dst : Vertex) (r : ℚ) : Prop :=
  ∃ l : List Vertex,
    (src :: l).Nodup ∧ (src :: l).getLast? = some dst ∧ chainRate g src l = some r

/-- Well-formedness of the association-list representation: the outer map
and every inner map have duplicate-free keys.  Every Rust `HashMap` has
this property by construction, and it is preserved by `add_rate`. -/
def Graph.WF (g : Graph) : Prop :=
  (g.edges.map (fun e => e.1)).Nodup ∧
    ∀ p ∈ g.edges, (p.2.map (fun x => x.1)).Nodup

instance : DecidablePred Graph.WF := fun g => by
  unfold Graph.WF
  infer_instance

/-- The three-edge graph of the `test_one_hop` test. -/
def oneHopGraph : Graph :=
  (Graph.new.addAll [('A', 'B', 7/5), ('A', 'C', 1/10), ('B', 'C', 1/5)]).getD Graph.new

/-- A seven-edge graph on which the pruned search misses the optimum. -/
def cexGraph : Graph :=
  (Graph.new.addAll
    [('F', 'B', 1), ('E', 'B', 3/2), ('B', 'D', 3), ('D', 'A', 2),
     ('A', 'B', 5), ('D', 'C', 2/3), ('C', 'F', 1)]).getD Graph.new

/-! ### Association-list lemmas -/

theorem alookup_ainsert_self {α β : Type} [DecidableEq α] (l : List (α × β)) (a : α) (b : β) :
    alookup (ainsert l a b) a = some b := by
  induction l with
  | nil => simp [ainsert, alookup]
  | cons hd tl ih =>
    obtain ⟨k, c⟩ := hd
    by_cases h : k = a
    · subst h; simp [ainsert, alookup]
    · simp [ainsert, alookup, h, ih]

theorem alookup_ainsert_ne {α β : Type} [DecidableEq α] (l : List (α × β)) (a : α) (b : β)
    (v : α) (h : v ≠ a) : alookup (ainsert l a b) v = alookup l v := by
  induction l with
  | nil =>
    have ha : a ≠ v := fun hh => h hh.symm
    simp [ainsert, alookup, ha]
  | cons hd tl ih =>
    obtain ⟨k, c⟩ := hd
    by_cases hk : k = a
    · subst hk
      have hkv : k ≠ v := fun hh => h hh.symm
      simp [ainsert, alookup, hkv]
    · simp only [ainsert, if_neg hk]
      by_cases hv : k = v
      · simp [alookup, hv]
      · simp [alookup, hv, ih]

theorem alookup_mem {α β : Type} [DecidableEq α] {l : List (α × β)} {a : α} {b : β}
    (h : alookup l a = some b) : (a, b) ∈ l := by
  induction l with
  | nil => simp [alookup] at h
  | cons hd tl ih =>
    obtain ⟨k, c⟩ := hd
    by_cases hk : k = a
    · subst hk
      simp [alookup] at h
      simp [h]
    · simp only [alookup, if_neg hk] at h
      exact List.mem_cons_of_mem _ (ih h)

theorem mem_alookup {α β : Type} [DecidableEq α] {l : List (α × β)} {a : α} {b : β}
    (h : (a, b) ∈ l) (hnd : (l.map (fun x => x.1)).Nodup) : alookup l a = some b := by
  induction l with
  | nil => simp at h
  | cons hd tl ih =>
    obtain ⟨k, c⟩ := hd
    simp only [List.map_cons, List.nodup_cons] at hnd
    rcases List.mem_cons.mp h with h1 | h1
    · obtain ⟨h2, h3⟩ := Prod.mk.injEq .. ▸ h1
      simp [alookup, h2.symm, h3]
    · have hk : k ≠ a := by
        intro hk
        subst hk
        exact hnd.1 (List.mem_map.mpr ⟨(k, b), h1, rfl⟩)
      simp [alookup, hk, ih h1 hnd.2]

theorem mem_ainsert {α β : Type} [DecidableEq α] {l : List (α × β)} {a : α} {b : β}
    {x : α × β} (h : x ∈ ainsert l a b) : x = (a, b) ∨ x ∈ l := by
  induction l with
  | nil => simp [ainsert] at h; simp [h]
  | cons hd tl ih =>
    obtain ⟨k, c⟩ := hd
    by_cases hk : k = a
    · subst hk
      simp only [ainsert, if_pos rfl] at h
      rcases List.mem_cons.mp h with h1 | h1
      · exact Or.inl h1
      · exact Or.inr (List.mem_cons_of_mem _ h1)
    · simp only [ainsert, if_neg hk] at h
      rcases List.mem_cons.mp h with h1 | h1
      · exact Or.inr (h1 ▸ List.mem_cons_self _ _)
      · rcases ih h1 with h2 | h2
        · exact Or.inl h2
        · exact Or.inr (List.mem_cons_of_mem _ h2)

theorem keys_ainsert {α β : Type} [DecidableEq α] {l : List (α × β)} {a : α} {b : β}
    {x : α} (h : x ∈ (ainsert l a b).map (fun e => e.1)) :
    x = a ∨ x ∈ l.map (fun e => e.1) := by
  obtain ⟨⟨k, c⟩, hk, hx⟩ := List.mem_map.mp h
  rcases mem_ainsert hk with h1 | h1
  · left; rw [← hx, h1]
  · right; exact List.mem_map.mpr ⟨_, h1, hx⟩

theorem keys_nodup_ainsert {α β : Type} [DecidableEq α] (l : List (α × β)) (a : α) (b : β)
    (h : (l.map (fun e => e.1)).Nodup) :
    ((ainsert l a b).map (fun e => e.1)).Nodup := by
  induction l with
  | nil => simp [ainsert]
  | cons hd tl ih =>
    obtain ⟨k, c⟩ := hd
    simp only [List.map_cons, List.nodup_cons] at h
    by_cases hk : k = a
    · subst hk
      simpa [ainsert] using h
    · simp only [ainsert, if_neg hk, List.map_cons, List.nodup_cons]
      refine ⟨fun hmem => ?_, ih h.2⟩
      rcases keys_ainsert hmem with h1 | h1
      · exact hk h1
      · exact h.1 h1

theorem alookup_isSome_ainsert {α β : Type} [DecidableEq α] (l : List (α × β)) (a : α)
    (b : β) (v : α) :
    (alookup (ainsert l a b) v).isSome ↔ v = a ∨ (alookup l v).isSome := by
  by_cases h : v = a
  · subst h; simp [alookup_ainsert_self]
  · simp [alookup_ainsert_ne l a b v h, h]

/-! ### Well-formedness and its preservation by `add_rate` -/

theorem Graph.new_wf : Graph.WF Graph.new := by
  constructor <;> simp [Graph.new]

theorem getD_keys_nodup {es : List (Vertex × List (Vertex × ℚ))}
    (h : ∀ p ∈ es, (p.2.map (fun x => x.1)).Nodup) (v : Vertex) :
    ((((alookup es v).getD []).map (fun x => x.1)).Nodup) := by
  cases hl : alookup es v with
  | none => simp
  | some inner => simpa using h _ (alookup_mem hl)

theorem add_rate_wf {g g' : Graph} {e : Vertex × Vertex} {r : ℚ} (hwf : Graph.WF g)
    (h : g.add_rate e r = some g') : Graph.WF g' := by
  unfold Graph.add_rate at h
  by_cases hr : r = 0
  · simp [hr] at h
  by_cases he : e.1 = e.2
  · simp [hr, he] at h
    exact h ▸ hwf
  simp only [if_neg hr, if_neg he, Option.some.injEq] at h
  subst h
  have hes1 : ∀ p ∈ ainsert g.edges e.1
      (ainsert ((alookup g.edges e.1).getD []) e.2 r), (p.2.map (fun x => x.1)).Nodup := by
    intro p hp
    rcases mem_ainsert hp with h1 | h1
    · subst h1
      exact keys_nodup_ainsert _ _ _ (getD_keys_nodup hwf.2 e.1)
    · exact hwf.2 _ h1
  constructor
  · exact keys_nodup_ainsert _ _ _ (keys_nodup_ainsert _ _ _ hwf.1)
  · intro p hp
    rcases mem_ainsert hp with h1 | h1
    · subst h1
      exact keys_nodup_ainsert _ _ _ (getD_keys_nodup hes1 e.2)
    · exact hes1 _ h1

theorem addRateChars_wf {g g' : Graph} {a b : Char} {r : ℚ} (hwf : Graph.WF g)
    (h : g.addRateChars a b r = some g') : Graph.WF g' :=
  add_rate_wf hwf h

theorem addAll_wf {g g' : Graph} {l : List (Vertex × Vertex × ℚ)} (hwf : Graph.WF g)
    (h : g.addAll l = some g') : Graph.WF g' := by
  induction l generalizing g with
  | nil => simp [Graph.addAll] at h; exact h ▸ hwf
  | cons hd tl ih =>
    obtain ⟨a, b, r⟩ := hd
    simp only [Graph.addAll] at h
    cases hstep : g.addRateChars a b r with
    | none => rw [hstep] at h; simp at h
    | some g1 =>
      rw [hstep] at h
      exact ih (addRateChars_wf hwf hstep) h

/-! ### Termination of the search loop: the fuel used by `find_best_rate`
is sufficient, for every graph and every query. -/

theorem bigA_pos (d : Nat) : ∀ n, 0 < bigA d n
  | 0 => Nat.one_pos
  | n + 1 => by
    have := Nat.zero_le (d * bigA d n)
    simp only [bigA]
    omega

theorem stateMeasure_cons (g : Graph) (e : QEntry) (q : List QEntry) :
    stateMeasure g (e :: q) = entryMeasure g e + stateMeasure g q := by
  simp [stateMeasure]

theorem stateMeasure_append (g : Graph) (q q' : List QEntry) :
    stateMeasure g (q ++ q') = stateMeasure g q + stateMeasure g q' := by
  simp [stateMeasure]

theorem mem_expand {g : Graph} {v : Vertex} {r : ℚ} {p : List Vertex} {x : QEntry}
    (h : x ∈ expand g v r p) :
    ∃ u ru, (u, ru) ∈ neighbors g v ∧ u ∉ p ∧ x = (u, ru * r, p ++ [u]) := by
  unfold expand at h
  obtain ⟨⟨u, ru⟩, hmem, hf⟩ := List.mem_filterMap.mp h
  simp only [ite_eq_iff, reduceCtorEq, and_false, false_and, Option.some.injEq, false_or] at hf
  refine ⟨u, ru, hmem, ?_, hf.2.symm⟩
  simpa using hf.1

theorem neighbors_sub_innerKeys {g : Graph} {v u : Vertex} {ru : ℚ}
    (h : (u, ru) ∈ neighbors g v) : u ∈ innerKeys g := by
  unfold neighbors at h
  cases hl : alookup g.edges v with
  | none => rw [hl] at h; simp at h
  | some inner =>
    rw [hl] at h
    simp only [Option.getD_some] at h
    unfold innerKeys
    rw [List.mem_flatten]
    exact ⟨inner.map (fun x => x.1), List.mem_map.mpr ⟨_, alookup_mem hl, rfl⟩,
      List.mem_map.mpr ⟨_, h, rfl⟩⟩

theorem neighbors_length_le (g : Graph) (v : Vertex) :
    (neighbors g v).length ≤ degBound g := by
  unfold neighbors degBound
  cases hl : alookup g.edges v with
  | none => simp
  | some inner =>
    simp only [Option.getD_some]
    have hmem : (inner.map (fun x => x.1)) ∈ g.edges.map (fun e => e.2.map (fun x => x.1)) :=
      List.mem_map.mpr ⟨_, alookup_mem hl, rfl⟩
    calc inner.length = (inner.map (fun x => x.1)).length := by simp
    _ ≤ (innerKeys g).length := by
        unfold innerKeys
        rw [List.length_flatten]
        exact List.le_sum_of_mem (List.mem_map.mpr ⟨_, hmem, rfl⟩)

theorem stateMeasure_expand_lt (g : Graph) (v : Vertex) (r : ℚ) (p : List Vertex) :
    stateMeasure g (expand g v r p) < entryMeasure g (v, r, p) := by
  have hgoal : entryMeasure g (v, r, p) = bigA (degBound g) ((freshSet g) \ p.toFinset).card :=
    rfl
  rcases eq_or_ne (expand g v r p) [] with he | he
  · rw [he, hgoal]
    simpa [stateMeasure] using bigA_pos (degBound g) _
  obtain ⟨x₀, hx₀⟩ := List.exists_mem_of_ne_nil _ he
  obtain ⟨u₀, ru₀, hn₀, hp₀, _⟩ := mem_expand hx₀
  have hm : 0 < ((freshSet g) \ p.toFinset).card := by
    refine Finset.card_pos.mpr ⟨u₀, Finset.mem_sdiff.mpr ⟨?_, ?_⟩⟩
    · exact List.mem_toFinset.mpr (neighbors_sub_innerKeys hn₀)
    · simpa using hp₀
  set m := ((freshSet g) \ p.toFinset).card with hmdef
  have hmeas : ∀ x ∈ expand g v r p, entryMeasure g x ≤ bigA (degBound g) (m - 1) := by
    intro x hx
    obtain ⟨u, ru, hn, hpu, rfl⟩ := mem_expand hx
    have hF : u ∈ freshSet g := List.mem_toFinset.mpr (neighbors_sub_innerKeys hn)
    have hmem : u ∈ (freshSet g) \ p.toFinset := Finset.mem_sdiff.mpr ⟨hF, by simpa using hpu⟩
    have hset : (freshSet g) \ (p ++ [u]).toFinset = ((freshSet g) \ p.toFinset).erase u := by
      ext y
      simp only [List.toFinset_append, Finset.mem_sdiff, Finset.mem_erase, Finset.mem_union,
        List.toFinset_cons, List.toFinset_nil, insert_emptyc_eq, Finset.mem_insert,
        Finset.not_mem_empty, or_false, Finset.mem_singleton]
      tauto
    have : entryMeasure g (u, ru * r, p ++ [u]) =
        bigA (degBound g) (((freshSet g) \ (p ++ [u]).toFinset).card) := rfl
    rw [this, hset, Finset.card_erase_of_mem hmem]
  have hsum : stateMeasure g (expand g v r p) ≤
      (expand g v r p).length * bigA (degBound g) (m - 1) := by
    have := List.sum_le_card_nsmul ((expand g v r p).map (entryMeasure g))
      (bigA (degBound g) (m - 1)) (by
        intro x hx
        obtain ⟨y, hy, rfl⟩ := List.mem_map.mp hx
        exact hmeas y hy)
    simpa [stateMeasure, mul_comm] using this
  have hlen : (expand g v r p).length ≤ degBound g := by
    unfold expand
    exact le_trans (List.length_filterMap_le _ _) (neighbors_length_le g v)
  have hA : bigA (degBound g) m = 1 + degBound g * bigA (degBound g) (m - 1) := by
    obtain ⟨k, hk⟩ : ∃ k, m = k + 1 := ⟨m - 1, by omega⟩
    rw [hk]
    simp [bigA]
  have hmul : (expand g v r p).length * bigA (degBound g) (m - 1) ≤
      degBound g * bigA (degBound g) (m - 1) :=
    Nat.mul_le_mul_right _ hlen
  rw [hgoal, hA]
  omega

theorem bfsLoop_isSome_of_measure_lt (g : Graph) (dst : Vertex) :
    ∀ (n : Nat) (q : List QEntry) (vis : List (Vertex × ℚ)) (best : Option ℚ),
      stateMeasure g q < n → (bfsLoop g dst n q vis best).isSome := by
  intro n
  induction n with
  | zero => intro q vis best h; exact absurd h (Nat.not_lt_zero _)
  | succ n ih =>
    intro q vis best h
    match q with
    | [] => simp [bfsLoop]
    | (v, r, p) :: rest =>
      have hpos : 0 < entryMeasure g (v, r, p) := bigA_pos _ _
      have hcons := stateMeasure_cons g (v, r, p) rest
      simp only [bfsLoop]
      cases hvc : visitCheck vis v r with
      | none => exact ih rest vis best (by omega)
      | some vis' =>
        by_cases hd : v = dst
        · simp only [if_pos hd]
          exact ih rest vis' (someBetter best r) (by omega)
        · simp only [if_neg hd]
          have hexp := stateMeasure_expand_lt g v r p
          have happ := stateMeasure_append g rest (expand g v r p)
          exact ih _ vis' best (by omega)

theorem bfsLoop_fuel_succ {g : Graph} {dst : Vertex} :
    ∀ {n : Nat} {q : List QEntry} {vis : List (Vertex × ℚ)} {best : Option ℚ}
      {res : Option ℚ × List (Vertex × ℚ)},
      bfsLoop g dst n q vis best = some res → bfsLoop g dst (n + 1) q vis best = some res := by
  intro n
  induction n with
  | zero =>
    intro q vis best res h
    match q with
    | [] => exact h
    | e :: rest => simp [bfsLoop] at h
  | succ n ih =>
    intro q vis best res h
    match q with
    | [] => exact h
    | (v, r, p) :: rest =>
      simp only [bfsLoop] at h ⊢
      cases hvc : visitCheck vis v r with
      | none => rw [hvc] at h; exact ih h
      | some vis' =>
        rw [hvc] at h
        by_cases hd : v = dst
        · simp only [if_pos hd] at h ⊢
          exact ih h
        · simp only [if_neg hd] at h ⊢
          exact ih h

theorem bfsLoop_fuel_le {g : Graph} {dst : Vertex} {n m : Nat} {q : List QEntry}
    {vis : List (Vertex × ℚ)} {best : Option ℚ} {res : Option ℚ × List (Vertex × ℚ)}
    (hnm : n ≤ m) (h : bfsLoop g dst n q vis best = some res) :
    bfsLoop g dst m q vis best = some res := by
  induction hnm with
  | refl => exact h
  | step _ ih => exact bfsLoop_fuel_succ ih

/-- Any run of the loop that completes on some fuel computes `find_best_rate`. -/
theorem find_best_rate_of_run {g : Graph} {src dst : Vertex} {n : Nat}
    {res : Option ℚ × List (Vertex × ℚ)}
    (h : bfsLoop g dst n [(src, 1, [src])] [] none = some res) :
    g.find_best_rate src dst = res.1 := by
  have hsuff := bfsLoop_isSome_of_measure_lt g dst (stateMeasure g [(src, 1, [src])] + 1)
    [(src, 1, [src])] [] none (Nat.lt_succ_self _)
  obtain ⟨res', hres'⟩ := Option.isSome_iff_exists.mp hsuff
  have h1 := bfsLoop_fuel_le (Nat.le_max_left n (stateMeasure g [(src, 1, [src])] + 1)) h
  have h2 := bfsLoop_fuel_le
    (Nat.le_max_right n (stateMeasure g [(src, 1, [src])] + 1)) hres'
  rw [h1] at h2
  obtain rfl : res = res' := Option.some_injective _ h2
  unfold Graph.find_best_rate
  rw [hres']

/-! ### Soundness: every rate the search returns is realized by a simple
path of the graph. -/

theorem edgeRate_of_mem_neighbors {g : Graph} (hwf : Graph.WF g) {v u : Vertex} {ru : ℚ}
    (h : (u, ru) ∈ neighbors g v) : edgeRate g v u = some ru := by
  unfold neighbors at h
  cases hl : alookup g.edges v with
  | none => rw [hl] at h; simp at h
  | some inner =>
    rw [hl] at h
    simp only [Option.getD_some] at h
    unfold edgeRate
    rw [hl]
    exact mem_alookup h (hwf.2 _ (alookup_mem hl))

theorem chainRate_cons {g : Graph} {a b : Vertex} {rest : List Vertex} {r : ℚ}
    (h : chainRate g a (b :: rest) = some r) :
    ∃ e rb, edgeRate g a b = some e ∧ chainRate g b rest = some rb ∧ r = e * rb := by
  unfold chainRate at h
  cases he : edgeRate g a b with
  | none => rw [he] at h; simp at h
  | some e =>
    rw [he] at h
    cases hc : chainRate g b rest with
    | none => rw [hc] at h; simp at h
    | some rb =>
      rw [hc] at h
      simp only [Option.map_some', Option.some.injEq] at h
      exact ⟨e, rb, rfl, rfl, h.symm⟩

theorem chainRate_cons_of {g : Graph} {a b : Vertex} {rest : List Vertex} {e rb : ℚ}
    (he : edgeRate g a b = some e) (hc : chainRate g b rest = some rb) :
    chainRate g a (b :: rest) = some (e * rb) := by
  unfold chainRate
  rw [he, hc]
  rfl

theorem chainRate_snoc {g : Graph} :
    ∀ {t : List Vertex} {a v u : Vertex} {r e : ℚ},
      chainRate g a t = some r → (a :: t).getLast? = some v → edgeRate g v u = some e →
      chainRate g a (t ++ [u]) = some (r * e) := by
  intro t
  induction t with
  | nil =>
    intro a v u r e hc hlast he
    simp only [chainRate, Option.some.injEq] at hc
    simp only [List.getLast?_singleton, Option.some.injEq] at hlast
    subst hlast
    rw [List.nil_append]
    rw [show (r * e) = e * 1 by rw [← hc]; ring]
    exact chainRate_cons_of he rfl
  | cons b rest ih =>
    intro a v u r e hc hlast he
    obtain ⟨eab, rb, heab, hcb, rfl⟩ := chainRate_cons hc
    have hlast' : (b :: rest).getLast? = some v := by
      rw [← hlast]
      exact (List.getLast?_cons_cons ..).symm
    have := chainRate_cons_of heab (ih hcb hlast' he)
    rw [List.cons_append]
    rw [this]
    ring_nf

/-- The invariant of a queue entry: its path starts at `src`, is
duplicate-free, ends at the entry's terminal vertex, and its compounded
rate along the stored edges is the entry's rate. -/
def QEntryOk (g : Graph) (src : Vertex) (x : QEntry) : Prop :=
  ∃ t : List Vertex, x.2.2 = src :: t ∧ (src :: t).Nodup ∧
    chainRate g src t = some x.2.1 ∧ (src :: t).getLast? = some x.1

/-- The invariant of the candidate: any recorded best rate is realized by a
simple path from `src` to `dst`. -/
def BestOk (g : Graph) (src dst : Vertex) (b : Option ℚ) : Prop :=
  ∀ x, b = some x → SimplePathRate g src dst x

theorem bestOk_someBetter {g : Graph} {src dst : Vertex} {b : Option ℚ} {r : ℚ}
    (hb : BestOk g src dst b) (hr : SimplePathRate g src dst r) :
    BestOk g src dst (someBetter b r) := by
  intro x hx
  unfold someBetter at hx
  cases b with
  | none =>
    obtain rfl : r = x := by simpa using hx
    exact hr
  | some y =>
    simp only [Option.some.injEq] at hx
    by_cases hyr : y < r
    · rw [if_pos hyr] at hx; exact hx ▸ hr
    · rw [if_neg hyr] at hx; exact hx ▸ hb y rfl

theorem bfsLoop_sound {g : Graph} (hwf : Graph.WF g) (src dst : Vertex) :
    ∀ (n : Nat) (q : List QEntry) (vis : List (Vertex × ℚ)) (best : Option ℚ)
      (res : Option ℚ × List (Vertex × ℚ)),
      bfsLoop g dst n q vis best = some res →
      (∀ e ∈ q, QEntryOk g src e) → BestOk g src dst best →
      BestOk g src dst res.1 := by
  intro n
  induction n with
  | zero =>
    intro q vis best res h hq hb
    match q with
    | [] =>
      simp only [bfsLoop, Option.some.injEq] at h
      rw [← h]
      exact hb
    | e :: rest => simp [bfsLoop] at h
  | succ n ih =>
    intro q vis best res h hq hb
    match q with
    | [] =>
      simp only [bfsLoop, Option.some.injEq] at h
      rw [← h]
      exact hb
    | (v, r, p) :: rest =>
      have hqe := hq _ (List.mem_cons_self _ _)
      have hqrest : ∀ e ∈ rest, QEntryOk g src e := fun e he => hq _ (List.mem_cons_of_mem _ he)
      simp only [bfsLoop] at h
      cases hvc : visitCheck vis v r with
      | none =>
        rw [hvc] at h
        exact ih rest vis best res h hqrest hb
      | some vis' =>
        rw [hvc] at h
        by_cases hd : v = dst
        · simp only [if_pos hd] at h
          refine ih rest vis' _ res h hqrest (bestOk_someBetter hb ?_)
          obtain ⟨t, _, hnd, hcr, hlast⟩ := hqe
          exact ⟨t, hnd, hd ▸ hlast, hcr⟩
        · simp only [if_neg hd] at h
          refine ih _ vis' best res h ?_ hb
          intro e he
          rcases List.mem_append.mp he with h1 | h1
          · exact hqrest _ h1
          · obtain ⟨u, ru, hn, hpu, rfl⟩ := mem_expand h1
            obtain ⟨t, hp, hnd, hcr, hlast⟩ := hqe
            have hp' : p = src :: t := hp
            have hup : u ∉ src :: t := hp' ▸ hpu
            refine ⟨t ++ [u], by simp [hp'], ?_, ?_, ?_⟩
            · have h2 : ((src :: t) ++ [u]).Nodup := by
                rw [List.nodup_append]
                refine ⟨hnd, by simp, ?_⟩
                intro y hy hyu
                simp only [List.mem_singleton] at hyu
                exact hup (hyu ▸ hy)
              simpa using h2
            · have he2 : edgeRate g v u = some ru := edgeRate_of_mem_neighbors hwf hn
              have := chainRate_snoc hcr hlast he2
              rw [mul_comm]
              exact this
            · rw [← List.cons_append, List.getLast?_concat]

/-- The initial queue of `find_best_rate` satisfies the entry invariant. -/
theorem initial_QEntryOk (g : Graph) (src : Vertex) :
    ∀ e ∈ [((src : Vertex), (1 : ℚ), [src])], QEntryOk g src e := by
  intro e he
  simp only [List.mem_singleton] at he
  subst he
  exact ⟨[], rfl, by simp, rfl, rfl⟩

/-! ### Completeness: whenever any simple path connects the endpoints, the
search returns a candidate. -/

theorem visitCheck_some {vis : List (Vertex × ℚ)} {v : Vertex} {r : ℚ}
    {vis' : List (Vertex × ℚ)} (h : visitCheck vis v r = some vis') :
    vis' = ainsert vis v r := by
  unfold visitCheck at h
  cases hl : alookup vis v with
  | none => rw [hl] at h; simpa using h.symm
  | some cur =>
    rw [hl] at h
    by_cases hc : r ≤ cur
    · simp [hc] at h
    · simp only [if_neg hc] at h
      simpa using h.symm

theorem visitCheck_none {vis : List (Vertex × ℚ)} {v : Vertex} {r : ℚ}
    (h : visitCheck vis v r = none) : (alookup vis v).isSome := by
  unfold visitCheck at h
  cases hl : alookup vis v with
  | none => rw [hl] at h; simp at h
  | some cur => simp

theorem someBetter_isSome (b : Option ℚ) (r : ℚ) : (someBetter b r).isSome := by
  cases b <;> simp [someBetter]

theorem bfsLoop_vis_mono {g : Graph} {dst : Vertex} :
    ∀ {n : Nat} {q : List QEntry} {vis : List (Vertex × ℚ)} {best : Option ℚ}
      {res : Option ℚ × List (Vertex × ℚ)},
      bfsLoop g dst n q vis best = some res →
      ∀ v, (alookup vis v).isSome → (alookup res.2 v).isSome := by
  intro n
  induction n with
  | zero =>
    intro q vis best res h v hv
    match q with
    | [] =>
      simp only [bfsLoop, Option.some.injEq] at h
      rw [← h]
      exact hv
    | e :: rest => simp [bfsLoop] at h
  | succ n ih =>
    intro q vis best res h v hv
    match q with
    | [] =>
      simp only [bfsLoop, Option.some.injEq] at h
      rw [← h]
      exact hv
    | (v₀, r, p) :: rest =>
      simp only [bfsLoop] at h
      cases hvc : visitCheck vis v₀ r with
      | none =>
        rw [hvc] at h
        exact ih h v hv
      | some vis' =>
        rw [hvc] at h
        obtain rfl := visitCheck_some hvc
        have hv' : (alookup (ainsert vis v₀ r) v).isSome :=
          (alookup_isSome_ainsert vis v₀ r v).mpr (Or.inr hv)
        by_cases hd : v₀ = dst
        · simp only [if_pos hd] at h
          exact ih h v hv'
        · simp only [if_neg hd] at h
          exact ih h v hv'

theorem bfsLoop_queue_visited {g : Graph} {dst : Vertex} :
    ∀ {n : Nat} {q : List QEntry} {vis : List (Vertex × ℚ)} {best : Option ℚ}
      {res : Option ℚ × List (Vertex × ℚ)},
      bfsLoop g dst n q vis best = some res →
      ∀ e ∈ q, (alookup res.2 e.1).isSome := by
  intro n
  induction n with
  | zero =>
    intro q vis best res h e he
    match q with
    | [] => simp at he
    | e₀ :: rest => simp [bfsLoop] at h
  | succ n ih =>
    intro q vis best res h e he
    match q with
    | [] => simp at he
    | (v₀, r, p) :: rest =>
      simp only [bfsLoop] at h
      cases hvc : visitCheck vis v₀ r with
      | none =>
        rw [hvc] at h
        rcases List.mem_cons.mp he with rfl | h1
        · exact bfsLoop_vis_mono h _ (visitCheck_none hvc)
        · exact ih h _ h1
      | some vis' =>
        rw [hvc] at h
        obtain rfl := visitCheck_some hvc
        have hself : (alookup (ainsert vis v₀ r) v₀).isSome := by
          rw [alookup_ainsert_self]
          rfl
        by_cases hd : v₀ = dst
        · simp only [if_pos hd] at h
          rcases List.mem_cons.mp he with rfl | h1
          · exact bfsLoop_vis_mono h _ hself
          · exact ih h _ h1
        · simp only [if_neg hd] at h
          rcases List.mem_cons.mp he with rfl | h1
          · exact bfsLoop_vis_mono h _ hself
          · exact ih h _ (List.mem_append_left _ h1)

/-- Every vertex on the entry's path is either the entry's terminal or
already recorded in the visited map. -/
def EntryVisOk (vis : List (Vertex × ℚ)) (x : QEntry) : Prop :=
  ∀ u ∈ x.2.2, u = x.1 ∨ (alookup vis u).isSome

/-- Every vertex recorded in `vis` is the destination or has all its
neighbors recorded in `visF`. -/
def ClosedWrt (g : Graph) (dst : Vertex) (vis visF : List (Vertex × ℚ)) : Prop :=
  ∀ v, (alookup vis v).isSome → v = dst ∨ ∀ e ∈ neighbors g v, (alookup visF e.1).isSome

theorem entryVisOk_ainsert {vis : List (Vertex × ℚ)} {x : QEntry} (a : Vertex) (b : ℚ)
    (h : EntryVisOk vis x) : EntryVisOk (ainsert vis a b) x := by
  intro u hu
  rcases h u hu with h1 | h1
  · exact Or.inl h1
  · exact Or.inr ((alookup_isSome_ainsert vis a b u).mpr (Or.inr h1))

theorem mem_expand_intro {g : Graph} {v u : Vertex} {ru : ℚ} {r : ℚ} {p : List Vertex}
    (hn : (u, ru) ∈ neighbors g v) (hpu : u ∉ p) :
    (u, ru * r, p ++ [u]) ∈ expand g v r p := by
  unfold expand
  refine List.mem_filterMap.mpr ⟨(u, ru), hn, ?_⟩
  simp [hpu]

theorem bfsLoop_closed {g : Graph} {dst : Vertex} :
    ∀ {n : Nat} {q : List QEntry} {vis : List (Vertex × ℚ)} {best : Option ℚ}
      {res : Option ℚ × List (Vertex × ℚ)},
      bfsLoop g dst n q vis best = some res →
      (∀ e ∈ q, EntryVisOk vis e) →
      ClosedWrt g dst vis res.2 →
      ClosedWrt g dst res.2 res.2 := by
  intro n
  induction n with
  | zero =>
    intro q vis best res h hq hcl
    match q with
    | [] =>
      simp only [bfsLoop, Option.some.injEq] at h
      rw [← h]
      rw [← h] at hcl
      exact hcl
    | e :: rest => simp [bfsLoop] at h
  | succ n ih =>
    intro q vis best res h hq hcl
    match q with
    | [] =>
      simp only [bfsLoop, Option.some.injEq] at h
      rw [← h]
      rw [← h] at hcl
      exact hcl
    | (v₀, r, p) :: rest =>
      have hqe := hq _ (List.mem_cons_self _ _)
      have hqrest : ∀ e ∈ rest, EntryVisOk vis e := fun e he => hq _ (List.mem_cons_of_mem _ he)
      simp only [bfsLoop] at h
      cases hvc : visitCheck vis v₀ r with
      | none =>
        rw [hvc] at h
        exact ih h hqrest hcl
      | some vis' =>
        rw [hvc] at h
        obtain rfl := visitCheck_some hvc
        by_cases hd : v₀ = dst
        · simp only [if_pos hd] at h
          refine ih h (fun e he => entryVisOk_ainsert _ _ (hqrest e he)) ?_
          intro u hu
          rcases (alookup_isSome_ainsert vis v₀ r u).mp hu with rfl | h1
          · exact Or.inl hd
          · exact hcl u h1
        · simp only [if_neg hd] at h
          refine ih h ?_ ?_
          · intro e he
            rcases List.mem_append.mp he with h1 | h1
            · exact entryVisOk_ainsert _ _ (hqrest e h1)
            · obtain ⟨u, ru, hn, hpu, rfl⟩ := mem_expand h1
              intro y hy
              rcases List.mem_append.mp hy with h2 | h2
              · rcases hqe y h2 with h3 | h3
                · refine Or.inr ?_
                  rw [h3, alookup_ainsert_self]
                  rfl
                · exact Or.inr ((alookup_isSome_ainsert vis v₀ r y).mpr (Or.inr h3))
              · simp only [List.mem_singleton] at h2
                exact Or.inl h2
          · intro u hu
            rcases (alookup_isSome_ainsert vis v₀ r u).mp hu with rfl | h1
            · refine Or.inr ?_
              intro e he
              by_cases hpe : e.1 ∈ p
              · rcases hqe e.1 hpe with h3 | h3
                · refine bfsLoop_vis_mono h _ ?_
                  rw [h3, alookup_ainsert_self]
                  rfl
                · exact bfsLoop_vis_mono h _
                    ((alookup_isSome_ainsert vis u r e.1).mpr (Or.inr h3))
              · have hmem : (e.1, e.2 * r, p ++ [e.1]) ∈ expand g u r p :=
                  mem_expand_intro (by simpa using he) hpe
                exact bfsLoop_queue_visited h _ (List.mem_append_right _ hmem)
            · exact hcl u h1

theorem mem_neighbors_of_edgeRate {g : Graph} {u v : Vertex} {e : ℚ}
    (h : edgeRate g u v = some e) : (v, e) ∈ neighbors g u := by
  unfold edgeRate at h
  cases hl : alookup g.edges u with
  | none => rw [hl] at h; simp at h
  | some inner =>
    rw [hl] at h
    simp only [Option.some_bind] at h
    unfold neighbors
    rw [hl]
    simpa using alookup_mem h

theorem walk_visited {g : Graph} {dst : Vertex} {visF : List (Vertex × ℚ)}
    (hclosed : ClosedWrt g dst visF visF) :
    ∀ (l : List Vertex) (a : Vertex) (r : ℚ), chainRate g a l = some r →
      (a :: l).getLast? = some dst → (alookup visF a).isSome →
      (alookup visF dst).isSome := by
  intro l
  induction l with
  | nil =>
    intro a r _ hlast ha
    simp only [List.getLast?_singleton, Option.some.injEq] at hlast
    exact hlast ▸ ha
  | cons b rest ih =>
    intro a r hc hlast ha
    obtain ⟨e, rb, he, hcb, _⟩ := chainRate_cons hc
    rcases hclosed a ha with rfl | hnbr
    · exact ha
    · have hb : (alookup visF b).isSome := hnbr (b, e) (mem_neighbors_of_edgeRate he)
      refine ih b rb hcb ?_ hb
      rw [← hlast]
      exact (List.getLast?_cons_cons ..).symm

theorem bfsLoop_best_of_dst_visited {g : Graph} {dst : Vertex} :
    ∀ {n : Nat} {q : List QEntry} {vis : List (Vertex × ℚ)} {best : Option ℚ}
      {res : Option ℚ × List (Vertex × ℚ)},
      bfsLoop g dst n q vis best = some res →
      ((alookup vis dst).isSome → best.isSome) →
      ((alookup res.2 dst).isSome → res.1.isSome) := by
  intro n
  induction n with
  | zero =>
    intro q vis best res h hb
    match q with
    | [] =>
      simp only [bfsLoop, Option.some.injEq] at h
      rw [← h]
      exact hb
    | e :: rest => simp [bfsLoop] at h
  | succ n ih =>
    intro q vis best res h hb
    match q with
    | [] =>
      simp only [bfsLoop, Option.some.injEq] at h
      rw [← h]
      exact hb
    | (v₀, r, p) :: rest =>
      simp only [bfsLoop] at h
      cases hvc : visitCheck vis v₀ r with
      | none =>
        rw [hvc] at h
        exact ih h hb
      | some vis' =>
        rw [hvc] at h
        obtain rfl := visitCheck_some hvc
        by_cases hd : v₀ = dst
        · simp only [if_pos hd] at h
          exact ih h (fun _ => someBetter_isSome best r)
        · simp only [if_neg hd] at h
          refine ih h (fun hds => hb ?_)
          rcases (alookup_isSome_ainsert vis v₀ r dst).mp hds with h1 | h1
          · exact absurd h1.symm hd
          · exact h1

/-- The canonical run of the loop under `find_best_rate`. -/
theorem find_best_rate_run (g : Graph) (src dst : Vertex) :
    ∃ res, bfsLoop g dst (stateMeasure g [(src, 1, [src])] + 1) [(src, 1, [src])] [] none =
      some res ∧ g.find_best_rate src dst = res.1 := by
  obtain ⟨res, hres⟩ := Option.isSome_iff_exists.mp
    (bfsLoop_isSome_of_measure_lt g dst (stateMeasure g [(src, 1, [src])] + 1)
      [(src, 1, [src])] [] none (Nat.lt_succ_self _))
  exact ⟨res, hres, find_best_rate_of_run hres⟩

theorem find_best_rate_complete {g : Graph} {src dst : Vertex}
    (h : ∃ r, SimplePathRate g src dst r) : (g.find_best_rate src dst).isSome := by
  obtain ⟨r, l, _, hlast, hcr⟩ := h
  obtain ⟨res, hres, hfr⟩ := find_best_rate_run g src dst
  have hsrc : (alookup res.2 src).isSome :=
    bfsLoop_queue_visited hres _ (List.mem_singleton.mpr rfl)
  have hclosed := bfsLoop_closed hres
    (by
      intro e he
      simp only [List.mem_singleton] at he
      subst he
      intro u hu
      simp only [List.mem_singleton] at hu
      exact Or.inl hu)
    (by
      intro v hv
      simp [alookup] at hv)
  have hdst := walk_visited hclosed l src r hcr hlast hsrc
  have hbest := bfsLoop_best_of_dst_visited hres (by intro hk; simp [alookup] at hk) hdst
  rw [hfr]
  exact hbest

/-! ### Remaining helper lemmas -/

/-- Soundness of the returned rate, as a helper: any rate returned on a
well-formed graph is realized by a simple path. -/
theorem find_best_rate_realizes {g : Graph} (hwf : Graph.WF g) {src dst : Vertex} {r : ℚ}
    (h : g.find_best_rate src dst = some r) : SimplePathRate g src dst r := by
  obtain ⟨res, hres, hfr⟩ := find_best_rate_run g src dst
  have hsound := bfsLoop_sound hwf src dst _ _ [] none res hres
    (initial_QEntryOk g src) (by intro x hx; cases hx)
  exact hsound r (by rw [← hfr, h])

/-- Any chain ending at `dst` and starting elsewhere contains a stored edge
into `dst`. -/
theorem chain_last_edge {g : Graph} {dst : Vertex} :
    ∀ (l : List Vertex) (a : Vertex) (r : ℚ), a ≠ dst → chainRate g a l = some r →
      (a :: l).getLast? = some dst → ∃ u e, edgeRate g u dst = some e := by
  intro l
  induction l with
  | nil =>
    intro a r hne _ hlast
    simp only [List.getLast?_singleton, Option.some.injEq] at hlast
    exact absurd hlast hne
  | cons b rest ih =>
    intro a r hne hcr hlast
    obtain ⟨e, rb, he, hcb, _⟩ := chainRate_cons hcr
    by_cases hb : b = dst
    · exact ⟨a, e, hb ▸ he⟩
    · refine ih b rb hb hcb ?_
      rw [← hlast]
      exact (List.getLast?_cons_cons ..).symm

/-- The bidirectional-consistency invariant of the adjacency: every stored
rate has its reciprocal stored in the opposite direction. -/
def BidirConsistent (g : Graph) : Prop :=
  ∀ u v r, edgeRate g u v = some r → edgeRate g v u = some (1 / r)

theorem new_bidirConsistent : BidirConsistent Graph.new := by
  intro u v r h
  simp [edgeRate, Graph.new, alookup] at h

/-- The two-vertex graph holding the single caller-supplied edge `A-B`. -/
def pairGraph : Graph := (Graph.new.addRateChars 'A' 'B' 2).getD Graph.new

/-- The graph obtained from a single `add_rate` call whose char pair is
supplied in decreasing order. -/
def revGraph : Graph := (Graph.new.addRateChars 'B' 'A' 2).getD Graph.new

theorem add_rate_bidir {g g' : Graph} {e : Vertex × Vertex} {r : ℚ}
    (hbc : BidirConsistent g) (h : g.add_rate e r = some g') : BidirConsistent g' := by
  obtain ⟨a, b⟩ := e
  unfold Graph.add_rate at h
  by_cases hr : r = 0
  · simp [hr] at h
  by_cases hab : a = b
  · simp [hr, hab] at h
    exact h ▸ hbc
  simp only [if_neg hr, if_neg hab, Option.some.injEq] at h
  set Ia := (alookup g.edges a).getD [] with hIa
  set innerA := ainsert Ia b r with hinnerA
  set es1 := ainsert g.edges a innerA with hes1
  set Ib := (alookup es1 b).getD [] with hIb
  set innerB := ainsert Ib a (1 / r) with hinnerB
  set es2 := ainsert es1 b innerB with hes2
  have hE : g'.edges = es2 := by rw [← h]
  have hER : ∀ u v, edgeRate g' u v = (alookup es2 u).bind (fun i => alookup i v) := by
    intro u v
    unfold edgeRate
    rw [hE]
  have hlb : alookup es1 b = alookup g.edges b := by
    rw [hes1]
    exact alookup_ainsert_ne _ _ _ _ (Ne.symm hab)
  have hIa_eq : ∀ w, alookup Ia w = edgeRate g a w := by
    intro w
    rw [hIa]
    unfold edgeRate
    cases hga : alookup g.edges a with
    | none => simp [alookup]
    | some i => simp
  have hIb_eq : ∀ w, alookup Ib w = edgeRate g b w := by
    intro w
    rw [hIb, hlb]
    unfold edgeRate
    cases hgb : alookup g.edges b with
    | none => simp [alookup]
    | some i => simp
  have ha2 : alookup es2 a = some innerA := by
    rw [hes2, alookup_ainsert_ne _ _ _ _ hab, hes1, alookup_ainsert_self]
  have hb2 : alookup es2 b = some innerB := by
    rw [hes2, alookup_ainsert_self]
  have hERa : ∀ w, edgeRate g' a w = if w = b then some r else edgeRate g a w := by
    intro w
    rw [hER, ha2]
    simp only [Option.some_bind]
    by_cases hw : w = b
    · subst hw
      simp [hinnerA, alookup_ainsert_self]
    · rw [if_neg hw, hinnerA, alookup_ainsert_ne _ _ _ _ hw, hIa_eq]
  have hERb : ∀ w, edgeRate g' b w = if w = a then some (1 / r) else edgeRate g b w := by
    intro w
    rw [hER, hb2]
    simp only [Option.some_bind]
    by_cases hw : w = a
    · subst hw
      simp [hinnerB, alookup_ainsert_self]
    · rw [if_neg hw, hinnerB, alookup_ainsert_ne _ _ _ _ hw, hIb_eq]
  have hERo : ∀ u, u ≠ a → u ≠ b → ∀ w, edgeRate g' u w = edgeRate g u w := by
    intro u hua hub w
    rw [hER, hes2, alookup_ainsert_ne _ _ _ _ hub, hes1, alookup_ainsert_ne _ _ _ _ hua]
    rfl
  intro u v s hs
  by_cases hua : u = a
  · subst hua
    rw [hERa] at hs
    by_cases hvb : v = b
    · subst hvb
      rw [if_pos rfl] at hs
      injection hs with hs'
      rw [hERb, if_pos rfl, hs']
    · rw [if_neg hvb] at hs
      have hrev := hbc u v s hs
      by_cases hva : v = u
      · subst hva
        rw [hERa, if_neg hvb]
        exact hrev
      · rw [hERo v (fun hh => hva hh) hvb]
        exact hrev
  · by_cases hub : u = b
    · subst hub
      rw [hERb] at hs
      by_cases hva : v = a
      · subst hva
        rw [if_pos rfl] at hs
        injection hs with hs'
        rw [hERa, if_pos rfl, ← hs', one_div_one_div]
      · rw [if_neg hva] at hs
        have hrev := hbc u v s hs
        by_cases hvb : v = u
        · subst hvb
          rw [hERb, if_neg hva]
          exact hrev
        · rw [hERo v hva (fun hh => hvb hh)]
          exact hrev
    · rw [hERo u hua hub] at hs
      have hrev := hbc u v s hs
      by_cases hva : v = a
      · subst hva
        rw [hERa, if_neg hub]
        exact hrev
      · by_cases hvb : v = b
        · subst hvb
          rw [hERb, if_neg hua]
          exact hrev
        · rw [hERo v hva hvb]
          exact hrev

/-! ## Claim theorems -/

/-- C1, counterexample: on the seven-edge graph `cexGraph` the search
returns 3/2, although the simple path F-C-D-A-B-E has compounded rate 5/2;
the returned rate is therefore not the maximum over all simple paths. -/
theorem find_best_rate_misses_optimum :
    cexGraph.find_best_rate 'F' 'E' = some (3/2) ∧
      SimplePathRate cexGraph 'F' 'E' (5/2) ∧ (3/2 : ℚ) < 5/2 := by
  refine ⟨by with_unfolding_all decide,
    ⟨['C', 'D', 'A', 'B', 'E'], by with_unfolding_all decide, by with_unfolding_all decide,
      by with_unfolding_all decide⟩, by norm_num⟩

/-- C1, amended: on a well-formed graph and distinct endpoints,
`find_best_rate` returns a candidate if and only if some simple path
connects the endpoints, and any returned rate is the compounded rate of
some simple path — but it can be strictly below the maximum. -/
theorem find_best_rate_sound_and_complete {g : Graph} (hwf : Graph.WF g)
    {src dst : Vertex} (_hne : src ≠ dst) :
    ((g.find_best_rate src dst).isSome ↔ ∃ r, SimplePathRate g src dst r) ∧
      ∀ r, g.find_best_rate src dst = some r → SimplePathRate g src dst r := by
  refine ⟨⟨fun hs => ?_, find_best_rate_complete⟩, fun r h => find_best_rate_realizes hwf h⟩
  obtain ⟨r, hr⟩ := Option.isSome_iff_exists.mp hs
  exact ⟨r, find_best_rate_realizes hwf hr⟩

/-- C1, witness for the amended theorem at the `test_one_hop` graph. -/
theorem find_best_rate_sound_and_complete_witness :
    ((oneHopGraph.find_best_rate 'A' 'C').isSome ↔ ∃ r, SimplePathRate oneHopGraph 'A' 'C' r) ∧
      ∀ r, oneHopGraph.find_best_rate 'A' 'C' = some r → SimplePathRate oneHopGraph 'A' 'C' r :=
  @find_best_rate_sound_and_complete oneHopGraph (by with_unfolding_all decide) 'A' 'C'
    (by decide)

/-- C2, counterexample: on the empty graph (no self-loop on `A` exists) the
search for `A → A` returns `some 1`, not the absent result the claim
demands. -/
theorem find_best_rate_self_on_empty : Graph.new.find_best_rate 'A' 'A' = some 1 := by
  with_unfolding_all decide

/-- C2, amended: for every graph and every vertex, `find_best_rate v v`
returns `some 1`: the initial queue entry is the trivial one-vertex path of
rate 1, and it reaches the destination immediately. -/
theorem find_best_rate_self (g : Graph) (v : Vertex) : g.find_best_rate v v = some 1 := by
  have hrun : bfsLoop g v (0 + 1) [(v, 1, [v])] [] none = some (some 1, ainsert [] v 1) := by
    simp [bfsLoop, visitCheck, alookup, someBetter]
  exact find_best_rate_of_run hrun

/-- C4, counterexample: `add_rate` with equal endpoints and a nonzero rate
returns normally with the graph unchanged instead of failing fast. -/
theorem add_rate_self_loop_silent : Graph.new.addRateChars 'A' 'A' 1 = some Graph.new := by
  with_unfolding_all decide

/-- C4, amended: `add_rate` fails fast (panics, modelled as `none`) exactly
on a zero rate; equal endpoints with a nonzero rate are silently ignored,
returning the graph unchanged. -/
theorem add_rate_failure_semantics (g : Graph) (e : Vertex × Vertex) (r : ℚ) :
    (r = 0 → g.add_rate e r = none) ∧ (r ≠ 0 → e.1 = e.2 → g.add_rate e r = some g) := by
  constructor
  · intro hr
    simp [Graph.add_rate, hr]
  · intro hr he
    simp [Graph.add_rate, hr, he]

/-- C4, witness for the amended theorem. -/
theorem add_rate_failure_semantics_witness :
    Graph.new.add_rate ('A', 'B') 0 = none ∧ Graph.new.add_rate ('A', 'A') 1 = some Graph.new :=
  ⟨(add_rate_failure_semantics Graph.new ('A', 'B') 0).1 rfl,
   (add_rate_failure_semantics Graph.new ('A', 'A') 1).2 (by norm_num) rfl⟩

/-- C5: `find_best_rate` terminates on every graph and every query: the
loop, run with the explicit fuel `stateMeasure + 1`, drains its queue and
produces the result, on cyclic graphs included. -/
theorem find_best_rate_terminates (g : Graph) (src dst : Vertex) :
    ∃ res, bfsLoop g dst (stateMeasure g [(src, 1, [src])] + 1) [(src, 1, [src])] [] none =
      some res ∧ g.find_best_rate src dst = res.1 :=
  find_best_rate_run g src dst

/-- C6: bidirectional consistency is preserved by every `add_rate` call:
if every stored rate has its reciprocal stored in the opposite direction,
the same holds after the call. -/
theorem add_rate_preserves_bidirectional {g g' : Graph} {e : Vertex × Vertex} {r : ℚ}
    (hbc : BidirConsistent g) (h : g.add_rate e r = some g') : BidirConsistent g' :=
  add_rate_bidir hbc h

/-- C6, witness: the invariant holds on the concrete one-call graph. -/
theorem add_rate_preserves_bidirectional_witness : BidirConsistent pairGraph :=
  add_rate_preserves_bidirectional new_bidirConsistent
    (show Graph.new.add_rate ('A', 'B') 2 = some pairGraph by with_unfolding_all decide)

/-- C7: on the `test_one_hop` graph (A-B = 1.4, A-C = 0.1, B-C = 0.2,
modelled as exact rationals), `find_best_rate A C` returns 0.28, the
maximum of the direct rate 0.1 and the one-hop product 1.4 × 0.2. -/
theorem find_best_rate_one_hop :
    oneHopGraph.find_best_rate 'A' 'C' = some (7/25) ∧
      (7/25 : ℚ) = max (1/10) ((7/5) * (1/5)) := by
  constructor
  · with_unfolding_all decide
  · rw [max_eq_right (by norm_num : (1 : ℚ)/10 ≤ (7/5) * (1/5))]
    norm_num

/-- C9: soundness of the returned rate — on a well-formed graph, any rate
returned by `find_best_rate` is the compounded rate of an actual simple
path from `src` to `dst`. -/
theorem find_best_rate_sound {g : Graph} (hwf : Graph.WF g) {src dst : Vertex} {r : ℚ}
    (h : g.find_best_rate src dst = some r) : SimplePathRate g src dst r :=
  find_best_rate_realizes hwf h

/-- C9, witness at the `test_one_hop` graph. -/
theorem find_best_rate_sound_witness : SimplePathRate oneHopGraph 'A' 'C' (7/25) :=
  find_best_rate_sound (by with_unfolding_all decide) (by with_unfolding_all decide)

/-- C10: `add_rate` with equal endpoints and a nonzero rate leaves the
graph completely unchanged and returns normally. -/
theorem add_rate_self_noop (g : Graph) (a : Char) (r : ℚ) (hr : r ≠ 0) :
    g.addRateChars a a r = some g := by
  unfold Graph.addRateChars Edge.fromChars
  rw [if_pos (le_refl a)]
  simp [Graph.add_rate, hr]

/-- C10, witness. -/
theorem add_rate_self_noop_witness : Graph.new.addRateChars 'B' 'B' 3 = some Graph.new :=
  add_rate_self_noop Graph.new 'B' 3 (by norm_num)

/-- C3, counterexample: `add_rate('B','A', 2)` attaches 2 to the sorted
direction A→B, not to the caller-supplied direction B→A: the stored rate
for B→A is 1/2, and `find_best_rate A B` (the claim expects 1/r = 1/2)
returns 2. -/
theorem add_rate_attaches_sorted_direction :
    edgeRate revGraph 'B' 'A' = some (1/2) ∧ edgeRate revGraph 'A' 'B' = some 2 ∧
      revGraph.find_best_rate 'A' 'B' = some 2 ∧ ((1 : ℚ)/2 ≠ 2) :=
  ⟨by with_unfolding_all decide, by with_unfolding_all decide,
   by with_unfolding_all decide, by norm_num⟩

/-- The single-edge graph produced by one sorted `add_rate` call: the
reverse search returns the reciprocal rate. -/
theorem single_edge_run {a b : Char} {r : ℚ} (hne : a ≠ b) :
    (Graph.mk (binsert b (binsert a [])) [(a, [(b, r)]), (b, [(a, 1/r)])]).find_best_rate
      b a = some (1/r) := by
  have hba : b ≠ a := Ne.symm hne
  have hrun : bfsLoop (Graph.mk (binsert b (binsert a [])) [(a, [(b, r)]), (b, [(a, 1/r)])])
      a (0 + 1 + 1) [(b, 1, [b])] [] none =
      some (some (1/r * 1), [(b, (1 : ℚ)), (a, 1/r * 1)]) := by
    simp [bfsLoop, visitCheck, alookup, ainsert, someBetter, expand, neighbors, hne, hba]
  have h2 := find_best_rate_of_run hrun
  rw [h2]
  simp

/-- C3, amended: when the caller supplies the endpoints in increasing
order (src < dst), the rate is attached as the claim states: src→dst
stores r, dst→src stores 1/r, and the reverse search returns 1/r. -/
theorem single_edge_stores_caller_direction {a b : Char} {r : ℚ} {g' : Graph}
    (hab : a < b) (hr : r ≠ 0) (h : Graph.new.addRateChars a b r = some g') :
    edgeRate g' a b = some r ∧ edgeRate g' b a = some (1/r) ∧
      g'.find_best_rate b a = some (1/r) := by
  have hne : a ≠ b := ne_of_lt hab
  have hba : b ≠ a := Ne.symm hne
  have hg : g' = Graph.mk (binsert b (binsert a [])) [(a, [(b, r)]), (b, [(a, 1/r)])] := by
    unfold Graph.addRateChars Edge.fromChars at h
    rw [if_pos (le_of_lt hab)] at h
    unfold Graph.add_rate at h
    simp only [if_neg hr, if_neg hne, Option.some.injEq, Graph.new] at h
    rw [← h]
    simp [alookup, ainsert, hne, hba]
  subst hg
  refine ⟨?_, ?_, single_edge_run hne⟩
  · simp [edgeRate, alookup, hne, hba]
  · simp [edgeRate, alookup, hne, hba]

/-- C3, witness for the amended theorem. -/
theorem single_edge_stores_caller_direction_witness :
    edgeRate pairGraph 'A' 'B' = some 2 ∧ edgeRate pairGraph 'B' 'A' = some (1/2) ∧
      pairGraph.find_best_rate 'B' 'A' = some (1/2) :=
  @single_edge_stores_caller_direction 'A' 'B' 2 pairGraph (by decide) (by norm_num)
    (by with_unfolding_all decide)

/-- C8: on a well-formed graph, if no simple path connects the distinct
vertices `src` and `dst`, then `find_best_rate` returns `none` (it always
returns, and never fabricates a rate). -/
theorem find_best_rate_disconnected_none {g : Graph} (hwf : Graph.WF g) {src dst : Vertex}
    (_hne : src ≠ dst) (hnp : ∀ r, ¬ SimplePathRate g src dst r) :
    g.find_best_rate src dst = none := by
  cases hfr : g.find_best_rate src dst with
  | none => rfl
  | some r => exact absurd (find_best_rate_realizes hwf hfr) (hnp r)

/-- C8, witness: on the single-edge graph A-B, the query A → C (an isolated
vertex) returns `none`. -/
theorem find_best_rate_disconnected_none_witness :
    pairGraph.find_best_rate 'A' 'C' = none := by
  refine find_best_rate_disconnected_none (by with_unfolding_all decide) (by decide) ?_
  intro r hp
  obtain ⟨l, hnd, hlast, hcr⟩ := hp
  obtain ⟨u, e, he⟩ := chain_last_edge l 'A' r (by decide) hcr hlast
  have hnone : edgeRate pairGraph u 'C' = none := by
    by_cases h1 : u = 'A'
    · subst h1
      with_unfolding_all decide
    · by_cases h2 : u = 'B'
      · subst h2
        with_unfolding_all decide
      · have hedges : pairGraph.edges = [('A', [('B', (2 : ℚ))]), ('B', [('A', 1/2)])] := by
          with_unfolding_all decide
        unfold edgeRate
        rw [hedges]
        simp [alookup, Ne.symm h1, Ne.symm h2]
  rw [hnone] at he
  simp at he
